import Mathlib

/-!
Shallow embedding of the hlltc HyperLogLog-TailCut sketch (src/hlltc.go).

The file `hlltc.go` (Sketch orchestration: New, Merge, toNormal, insert,
Insert, Estimate, mergeSparse, MarshalBinary, UnmarshalBinary) is embedded
directly from the source.  The repository's helper files (registers,
sparse hash encoding, compressed list, set, alpha/beta) are not under
src/, so those components are modelled from the spec, as marked on each
definition.

Machine integers are modelled as ℕ with explicit `% 2^w` where the Go
code relies on fixed-width wraparound (notably the `uint8` subtraction
`r - sk.b` in `insert`).  Fallible operations return `Option`/`Except`;
a Go runtime panic (out-of-range index) is modelled as `none`.
float64 arithmetic on dyadic rationals and small decimal constants is
modelled exactly; the two transcendental ingredients of `Estimate`
(`math.Log` inside `linearCount`, and the empirical `beta` polynomial)
are taken as parameters of `Estimate`, because every claim below either
compares estimates at equal arguments or exercises only branches that do
not evaluate them.
-/

set_option maxRecDepth 100000

namespace HLLTC

/-- Go constant `capacity = 16` (number of levels of a 4-bit register). -/
def capacity : ℕ := 16

/-- Go constant `pp = 25` (auxiliary sparse precision). -/
def pp : ℕ := 25

/-- Go constant `mp = 1 << pp`. -/
def mp : ℕ := 2 ^ pp

/-- Go constant `version = 1` (serialization format marker). -/
def version : ℕ := 1

/-- Unsigned 8-bit subtraction `(a - b) mod 256`, for `a b < 256`.
The Go expression `r - sk.b` on `uint8` wraps around; this is the
explicit model of that wraparound. -/
def u8sub (a b : ℕ) : ℕ := (a + 256 - b) % 256

/-- Fuel-driven bit length (number of significant binary digits); total
and kernel-computable.  `bitLenF f n` is the bit length of `n` provided
`n < 2^f`. -/
def bitLenF : ℕ → ℕ → ℕ
  | 0, _ => 0
  | f + 1, n => if n = 0 then 0 else bitLenF f (n / 2) + 1

/-- Bit length of a natural number below `2^64` (all hash-derived values
in this development fit). -/
def bitLen (n : ℕ) : ℕ := bitLenF 64 n

/-- Insertion into an ascending duplicate-free list, keeping it ascending
and duplicate-free.  Modelled from the spec: the Sparse Accumulator is "a
set of Sparse Entries, uniqueness enforced, no ordering significance"
(the Go `set` map type is not under src/); the canonical model is the
sorted duplicate-free list of its members, which is exactly the order the
source imposes with `sort.Sort(keys)` before every use of the set. -/
def insertSorted (k : ℕ) : List ℕ → List ℕ
  | [] => [k]
  | a :: t => if k < a then k :: a :: t else if k = a then a :: t else a :: insertSorted k t

/-- Boolean test that a list is strictly ascending with every element at
least `lo`. -/
def ascFromB (lo : ℕ) : List ℕ → Bool
  | [] => true
  | a :: t => decide (lo ≤ a) && ascFromB (a + 1) t

/-- Canonical sorted duplicate-free form of a list (fold of
`insertSorted`). -/
def canon (xs : List ℕ) : List ℕ := xs.foldl (fun acc k => insertSorted k acc) []

/-- Fuel-driven ascending merge-join of two lists, keeping one copy of
equal entries; mirrors the loop of `mergeSparse` in src/hlltc.go
(iterator over the compressed list on the left, sorted keys on the
right).  Total and kernel-computable; the fuel is adequate whenever it is
at least the sum of the lengths. -/
def mergeJoinF : ℕ → List ℕ → List ℕ → List ℕ
  | 0, ls, ks => ls ++ ks
  | _ + 1, [], ks => ks
  | _ + 1, l :: ls, [] => l :: ls
  | f + 1, l :: ls, k :: ks =>
    if l = k then l :: mergeJoinF f ls ks
    else if k < l then k :: mergeJoinF f (l :: ls) ks
    else l :: mergeJoinF f ls (k :: ks)

/-- Ascending merge-join (the `mergeSparse` loop of src/hlltc.go lines
178-200, with the compressed-list iterator on the left and the sorted
accumulator keys on the right). -/
def mergeJoin (ls ks : List ℕ) : List ℕ := mergeJoinF (ls.length + ks.length) ls ks

/-! ### Register Array

Modelled from the spec (registers.go is not under src/): "conceptually
`m` small unsigned counters (width 4 bits, range 0-15)"; §9 explicitly
blesses the one-counter-per-slot layout provided the 4-bit masking stays
in this component, so a register list stores one value per bucket and a
write keeps only the low 4 bits of the written value (the 4-bit physical
width).  Packing two counters per byte reappears in serialization. -/

/-- Register read (`registers.get`); out-of-range reads yield 0 (dense
code never performs them on well-formed states). -/
def regGet (rs : List ℕ) (i : ℕ) : ℕ := rs.getD i 0

/-- Register write (`registers.set`): a 4-bit cell keeps the low 4 bits
of the stored value. -/
def regSet (rs : List ℕ) (i v : ℕ) : List ℕ := rs.set i (v % 16)

/-- Minimum stored value across all buckets (`registers.min`). All stored
values are below 16, so the fold base 15 is neutral on nonempty
register arrays. -/
def regMin (rs : List ℕ) : ℕ := rs.foldr Nat.min 15

/-- Count of zero-valued buckets (`registers.zeros`). -/
def regZeros (rs : List ℕ) : ℕ := rs.countP (fun v => v = 0)

/-- Whole-array rebase (`registers.rebase`): subtract `delta` from every
stored value, floored at 0 (ℕ subtraction). -/
def regRebase (rs : List ℕ) (delta : ℕ) : List ℕ := rs.map (fun v => v - delta)

/-- Numerator of the harmonic sum `registers.sum(b)` = Σ 2^-(v+b): with
all stored values `v ≤ 15` the sum equals `regSumNum rs / 2^(15+b)`, and
`regSumNum` is the exact integer numerator Σ 2^(15-v). -/
def regSumNum (rs : List ℕ) : ℕ := rs.foldr (fun v acc => acc + 2 ^ (15 - v)) 0

/-- Pack one register value per byte pair: two 4-bit counters per byte,
even-indexed register in the high nibble (the wire layout of §6). -/
def pack : List ℕ → List ℕ
  | [] => []
  | [a] => [a % 16 * 16]
  | a :: b :: t => (a % 16 * 16 + b % 16) :: pack t

/-- Unpack bytes into register values (inverse of `pack`). -/
def unpack : List ℕ → List ℕ
  | [] => []
  | f :: t => f / 16 % 16 :: f % 16 :: unpack t

/-! ### Hash encoding

Modelled from the spec §4.1 (the sparse encoding file is not under
src/). Hash values are 64-bit; `pp = 25`. -/

/-- Sparse encoding `encodeHash(x, p, pp)` of a 64-bit hash, modelled
from the spec: the top `pp` bits are the fine-grained index; if the
`pp - p` extra index bits are all zero the rank cannot be recovered from
the fine index, so the 1-based leading-zero count of the remaining
`64 - pp` bits is stored explicitly with flag bit 1; otherwise the entry
is the fine index with flag bit 0. -/
def encodeHash (x p : ℕ) : ℕ :=
  let idx := x / 2 ^ (64 - pp)
  if idx % 2 ^ (pp - p) = 0 then
    let zeros := (64 - pp) - bitLen (x % 2 ^ (64 - pp)) + 1
    idx * 2 ^ 7 + zeros * 2 + 1
  else idx * 2

/-- Sparse decoding `decodeHash(k, p, pp) -> (index, rank)`, modelled
from the spec: project the fine index down to precision `p`; a flagged
entry carries its below-`pp` leading-zero count, to which the `pp - p`
guaranteed zeros are added; an unflagged entry recomputes the rank from
the nonzero extra index bits. -/
def decodeHash (k p : ℕ) : ℕ × ℕ :=
  if k % 2 = 1 then
    (k / 2 ^ 7 / 2 ^ (pp - p), k / 2 % 2 ^ 6 + (pp - p))
  else
    let idx := k / 2
    (idx / 2 ^ (pp - p), (pp - p) - bitLen (idx % 2 ^ (pp - p)) + 1)

/-- Dense fast path `getPosVal(x, p) -> (index, rank)`, modelled from the
spec: index is the top `p` bits, rank is 1 + the leading-zero count of
the remaining `64 - p` bits (an all-zero remainder caps the rank at the
maximum representable value `65 - p`). -/
def getPosVal (x p : ℕ) : ℕ × ℕ :=
  (x / 2 ^ (64 - p), (64 - p) - bitLen (x % 2 ^ (64 - p)) + 1)

/-! ### The Sketch -/

/-- The Sketch state (src/hlltc.go lines 19-29).  `alpha` is a pure
function of `m` (set once by `New`), so it is recomputed where needed
instead of stored; the injected hash function is passed to the operations
that use it.  `Option` mirrors the Go nil/non-nil pointer and map
fields. -/
structure Sketch where
  regs : Option (List ℕ)
  m : ℕ
  p : ℕ
  b : ℕ
  sparse : Bool
  sparseList : Option (List ℕ)
  tmpSet : Option (List ℕ)
deriving DecidableEq, Repr

/-- The sketch produced by a successful `New p`: Sparse state, empty
accumulator and compressed list, `m = 2^p` (for `4 ≤ p ≤ 18`,
`math.Pow(2, p)` is exact in float64). -/
def mkSketch (p : ℕ) : Sketch :=
  { regs := none, m := 2 ^ p, p := p, b := 0, sparse := true,
    sparseList := some [], tmpSet := some [] }

/-- Constructor `New` (src/hlltc.go lines 32-46). -/
def New (p : ℕ) : Except String Sketch :=
  if p < 4 ∨ 18 < p then .error "p has to be >= 4 and <= 18" else .ok (mkSketch p)

/-- Dense insert algorithm `insert(i, r)` (src/hlltc.go lines 111-126).
The Go guard `r - sk.b >= capacity` is a `uint8` subtraction, hence the
wrapped difference `u8sub`; the clamp
`uint8(math.Min(float64(r-sk.b), float64(capacity-1)))` is exact. -/
def Sketch.insert (sk : Sketch) (i r : ℕ) : Sketch :=
  let s1 :=
    if 16 ≤ u8sub r sk.b then
      let db := regMin (sk.regs.getD [])
      if 0 < db then
        { sk with b := (sk.b + db) % 256, regs := some (regRebase (sk.regs.getD []) db) }
      else sk
    else sk
  if s1.b < r then
    let val := min (r - s1.b) 15
    if regGet (s1.regs.getD []) i < val then
      { s1 with regs := some (regSet (s1.regs.getD []) i val) }
    else s1
  else s1

/-- Fold of the accumulator into the compressed list, `mergeSparse`
(src/hlltc.go lines 166-204): no-op on an empty accumulator; otherwise
the sorted accumulator keys are merge-joined into the compressed list
and the accumulator is emptied. -/
def Sketch.mergeSparse (sk : Sketch) : Sketch :=
  let T := sk.tmpSet.getD []
  if T.isEmpty then sk
  else { sk with sparseList := some (mergeJoin (sk.sparseList.getD []) T),
                 tmpSet := some [] }

/-- Promotion `toNormal` (src/hlltc.go lines 95-109): fold any pending
accumulator entries, allocate a fresh register array of size `m`, replay
every compressed-list entry through the dense insert algorithm, discard
the sparse state. -/
def Sketch.toNormal (sk : Sketch) : Sketch :=
  let sk1 := if 0 < (sk.tmpSet.getD []).length then sk.mergeSparse else sk
  let init : Sketch := { sk1 with regs := some (List.replicate sk1.m 0) }
  let skD := (sk1.sparseList.getD []).foldl
    (fun s e => let d := decodeHash e s.p; s.insert d.1 d.2) init
  { skD with sparse := false, tmpSet := none, sparseList := none }

/-- Public `Insert` (src/hlltc.go lines 129-143), parameterized by the
injected 64-bit hash function.  While Sparse: encode, add to the
accumulator, fold when the accumulator size times 100 exceeds `m`, then
promote when the folded list's element count exceeds `m` (the compressed
list's `Len()` is modelled from the spec as its element count).  While
Dense: direct `(index, rank)` insert. -/
def Sketch.Insert (h : ℕ → ℕ) (sk : Sketch) (e : ℕ) : Sketch :=
  let x := h e
  if sk.sparse then
    let T1 := insertSorted (encodeHash x sk.p) (sk.tmpSet.getD [])
    let sk1 := { sk with tmpSet := some T1 }
    if sk.m < T1.length * 100 then
      let sk2 := sk1.mergeSparse
      if sk2.m < (sk2.sparseList.getD []).length then sk2.toNormal else sk2
    else sk1
  else
    let d := getPosVal x sk.p
    sk.insert d.1 d.2

/-- Inserting a whole stream of elements into a sketch. -/
def run (h : ℕ → ℕ) (sk : Sketch) (es : List ℕ) : Sketch := es.foldl (Sketch.Insert h) sk

/-- One step of the sparse branch of `Merge` (src/hlltc.go lines 65-78):
decode the entry at the other sketch's precision and raise the receiver's
register to the decoded rank when larger.  The decoded rank is stored
without clamping. -/
def mergeOneSparse (s : Sketch) (op k : ℕ) : Sketch :=
  let d := decodeHash k op
  if regGet (s.regs.getD []) d.1 < d.2 then
    { s with regs := some (regSet (s.regs.getD []) d.1 d.2) }
  else s

/-- The dense branch of `Merge` (src/hlltc.go lines 79-90): for every
bucket of the other sketch's register array, raise the receiver's stored
value to the other's stored value when larger (the stored values are
compared directly). -/
def mergeDenseRegs (rs ors : List ℕ) : List ℕ :=
  (List.range ors.length).foldl
    (fun acc i => if regGet acc i < regGet ors i then regSet acc i (regGet ors i) else acc) rs

/-- Public `Merge` (src/hlltc.go lines 51-92).  Returns the Go error
value together with the post-call receiver state. -/
def Sketch.Merge (sk : Sketch) (other : Option Sketch) : Option String × Sketch :=
  match other with
  | none => (none, sk)
  | some o =>
    if sk.p ≠ o.p then (some "precisions must be equal", sk)
    else
      let sk1 := if sk.sparse then sk.toNormal else sk
      if o.sparse then
        let sk2 := (o.tmpSet.getD []).foldl (fun s k => mergeOneSparse s o.p k) sk1
        let sk3 := (o.sparseList.getD []).foldl (fun s k => mergeOneSparse s o.p k) sk2
        (none, sk3)
      else
        (none, { sk1 with regs := some (mergeDenseRegs (sk1.regs.getD []) (o.regs.getD [])) })

/-- `Merge` with both objects' post-call states made explicit: the
translation of src/hlltc.go lines 51-92 threads the `other` argument
through every statement; the source reads `other` (its precision, its
accumulator, its compressed list, its registers) and writes only through
the receiver, so the third component collects the (absent) writes to
`other`. -/
def MergeWithOther (sk o : Sketch) : Option String × Sketch × Sketch :=
  let r := sk.Merge (some o)
  (r.1, r.2, o)

/-- Numerator of the bias-correction constant `alpha(m)` (modelled from
the spec: the standard precision-dependent constants 0.673, 0.697, 0.709
and 0.7213/(1+1.079/m)). -/
def alphaNum (m : ℕ) : ℕ :=
  if m = 16 then 673 else if m = 32 then 697 else if m = 64 then 709 else 7213 * m

/-- Denominator of the bias-correction constant `alpha(m)`. -/
def alphaDen (m : ℕ) : ℕ :=
  if m = 16 then 1000 else if m = 32 then 1000 else if m = 64 then 1000
  else 10000 * m + 10790

/-- Public `Estimate` (src/hlltc.go lines 146-164).

`lc count` stands for `uint64(linearCount(mp, mp - count))` (sparse
branch; `math.Log` is transcendental, so the whole map from the folded
element count to the returned integer is a parameter).  `e0 m ez s`
stands for the dense `b = 0` branch `uint64(alpha*m*(m-ez)/(sum+beta(ez))
+ 0.5 + 0.5)`, a parameter because of the `beta` polynomial; `s` is the
exact numerator `regSumNum` of `sum` at `b = 0`.  The dense `b > 0`
branch `uint64(alpha*m*m/sum + 0.5 + 0.5)` is computed exactly: with
`sum = regSumNum / 2^(15+b)` it equals
`alphaNum*m*m*2^(15+b) / (alphaDen*regSumNum) + 1`. -/
def Sketch.Estimate (lc : ℕ → ℕ) (e0 : ℕ → ℕ → ℕ → ℕ) (sk : Sketch) : ℕ :=
  if sk.sparse then
    lc ((sk.mergeSparse.sparseList.getD []).length)
  else
    let rs := sk.regs.getD []
    if sk.b = 0 then e0 sk.m (regZeros rs) (regSumNum rs)
    else alphaNum sk.m * sk.m * sk.m * 2 ^ (15 + sk.b) / (alphaDen sk.m * regSumNum rs) + 1

/-! ### Serialization

The outer byte layout is embedded from src/hlltc.go lines 207-313; the
sub-serializers of the accumulator and the compressed list are modelled
from the spec §6: the accumulator as a 4-byte big-endian count followed
by that many 4-byte big-endian entries, the compressed list as its own
count, the byte length of its delta/varint stream, and the stream itself
(7 data bits per byte, continuation bit on all but the last byte of each
delta, little-endian digit order as the modelled choice). -/

/-- Big-endian 4-byte encoding of a 32-bit value. -/
def be32 (n : ℕ) : List ℕ :=
  [n / 2 ^ 24 % 256, n / 2 ^ 16 % 256, n / 2 ^ 8 % 256, n % 256]

/-- Big-endian read of the first four bytes (`binary.BigEndian.Uint32`). -/
def rd32 (d : List ℕ) : ℕ :=
  d.getD 0 0 * 2 ^ 24 + d.getD 1 0 * 2 ^ 16 + d.getD 2 0 * 2 ^ 8 + d.getD 3 0

/-- Fuel-driven varint encoding: 7 data bits per byte, continuation bit
(128) on all but the last byte.  Adequate fuel encodes any `n < 128^(f+1)`. -/
def varEncF : ℕ → ℕ → List ℕ
  | 0, n => [n % 128]
  | f + 1, n => if n < 128 then [n] else (n % 128 + 128) :: varEncF f (n / 128)

/-- Varint encoding of one delta (fuel 40 covers all values below
`2^280`, far beyond the 32-bit entries). -/
def varEnc (n : ℕ) : List ℕ := varEncF 40 n

/-- Decode one varint from a byte stream; `none` on a truncated stream
(a dangling continuation bit). -/
def varDecOne : List ℕ → Option (ℕ × List ℕ)
  | [] => none
  | b :: t =>
    if b < 128 then some (b, t)
    else match varDecOne t with
      | none => none
      | some (v, r) => some (b - 128 + 128 * v, r)

/-- Delta sequence of an ascending list relative to a running previous
absolute value. -/
def deltaList : ℕ → List ℕ → List ℕ
  | _, [] => []
  | last, x :: t => (x - last) :: deltaList x t

/-- The compressed list's encoded byte stream: each entry as a varint
delta from the previous absolute value. -/
def varBytes (L : List ℕ) : List ℕ := (deltaList 0 L).flatMap varEnc

/-- Decode `c` absolute entries from a delta/varint stream by running
sum; `none` on truncation. -/
def decEntries : ℕ → ℕ → List ℕ → Option (List ℕ)
  | 0, _, _ => some []
  | c + 1, last, bs =>
    match varDecOne bs with
    | none => none
    | some (d, r) =>
      match decEntries c (last + d) r with
      | none => none
      | some t => some ((last + d) :: t)

/-- Serialization of the Sparse Accumulator (modelled from the spec §6):
big-endian count, then the entries, emitted in the canonical sorted
order of the modelled set. -/
def setMarshal (T : List ℕ) : List ℕ := be32 T.length ++ T.flatMap be32

/-- Read `c` big-endian 4-byte accumulator entries; `none` when the data
is too short (the Go loop would index out of range). -/
def parseEntries : ℕ → List ℕ → Option (List ℕ)
  | 0, _ => some []
  | c + 1, bs =>
    if bs.length < 4 then none
    else match parseEntries c (bs.drop 4) with
      | none => none
      | some t => some (rd32 bs :: t)

/-- Serialization of the Compressed List (modelled from the spec §6,
length-prefixed option): element count, byte length of the stream, the
stream. -/
def listMarshal (L : List ℕ) : List ℕ :=
  let bs := varBytes L
  be32 L.length ++ be32 bs.length ++ bs

/-- Deserialization of the Compressed List (modelled from the spec §6):
`none` models the panic on truncated data. -/
def listUnmarshal (d : List ℕ) : Option (List ℕ) :=
  if d.length < 8 then none
  else
    let cnt := rd32 d
    let blen := rd32 (d.drop 4)
    if (d.drop 8).length < blen then none
    else decEntries cnt 0 ((d.drop 8).take blen)

/-- `MarshalBinary` (src/hlltc.go lines 207-252): version, p, b,
representation tag, then the representation payload. -/
def Sketch.MarshalBinary (sk : Sketch) : List ℕ :=
  [version, sk.p, sk.b] ++
  (if sk.sparse then
    1 :: (setMarshal (sk.tmpSet.getD []) ++ listMarshal (sk.sparseList.getD []))
  else
    let bytes := pack (sk.regs.getD [])
    0 :: (be32 bytes.length ++ bytes))

/-- `UnmarshalBinary` (src/hlltc.go lines 255-313).  `none` models a Go
runtime panic (index out of range on truncated data, or writing more
register bytes than the allocated array holds); `some (some e, sk)`
models an error return with the receiver state at return time;
`some (none, sk)` models success.  The version byte is read
(`_ = data[0]`) but never validated.  The non-zero-register bookkeeping
recomputed by the source at lines 302-310 is represented by the derived
`regZeros` of the decoded registers. -/
def Sketch.UnmarshalBinary (sk0 : Sketch) (d : List ℕ) : Option (Option String × Sketch) :=
  if d.length < 2 then none
  else
    match New (d.getD 1 0) with
    | .error e => some (some e, sk0)
    | .ok base =>
      if d.length < 4 then none
      else
        let b := d.getD 2 0
        if d.getD 3 0 = 1 then
          if d.length < 8 then none
          else
            let tssz := rd32 (d.drop 4)
            match parseEntries tssz (d.drop 8) with
            | none => none
            | some keys =>
              match listUnmarshal (d.drop (8 + 4 * tssz)) with
              | none => none
              | some L =>
                let tset := keys.foldl (fun t k => insertSorted k t) []
                some (none, { base with b := b, sparse := true, tmpSet := some tset, sparseList := some L })
        else
          if d.length < 8 then none
          else
            let dsz := rd32 (d.drop 4)
            let rest := d.drop 8
            if dsz < rest.length then none
            else
              let rgs := unpack rest ++ List.replicate ((dsz - rest.length) * 2) 0
              some (none, { base with b := b, sparse := false, tmpSet := none, sparseList := none, regs := some rgs })

/-- Well-formedness of a sketch state, as produced and maintained by the
public operations: precision in range, `m = 2^p`, `b` an 8-bit value,
and the representation-specific structure (Sparse: sorted duplicate-free
accumulator and compressed list of 32-bit entries with serializable
sizes; Dense: an even-length register array of 4-bit values with a
serializable size). -/
def validB (sk : Sketch) : Bool :=
  decide (4 ≤ sk.p) && decide (sk.p ≤ 18) && decide (sk.m = 2 ^ sk.p) &&
  decide (sk.b < 256) &&
  (match sk.sparse, sk.tmpSet, sk.sparseList, sk.regs with
   | true, some T, some L, none =>
     ascFromB 0 T && ascFromB 0 L &&
     T.all (fun k => k < 2 ^ 32) && L.all (fun k => k < 2 ^ 32) &&
     decide (T.length < 2 ^ 32) && decide (L.length < 2 ^ 32) &&
     decide ((varBytes L).length < 2 ^ 32)
   | false, none, none, some rs =>
     decide (rs.length % 2 = 0) && rs.all (fun v => v < 16) &&
     decide (rs.length / 2 < 2 ^ 32)
   | _, _, _, _ => false)

/-! ### Concrete states and streams used by the claim theorems -/

/-- A concrete injected hash function (the hash is an external
collaborator supplied at construction; the spec requires only
determinism).  Elements 0-15 hash to rank-5 values covering each of the
16 buckets at `p = 4`; element 16 to a second rank-5 value in bucket 0;
elements 17-32 to rank-15 values covering each bucket; element 33 to a
rank-30 value in bucket 0. -/
def hC (e : ℕ) : ℕ :=
  if e < 16 then (e * 2 ^ 21 + 2 ^ 16) * 2 ^ 39
  else if e = 16 then (2 ^ 16 + 1) * 2 ^ 39
  else if e < 33 then (e - 17) * 2 ^ 60 + 2 ^ 45
  else 2 ^ 30

/-- Seventeen distinct elements whose insertion drives a fresh `p = 4`
sketch across the promotion threshold. -/
def fillers : List ℕ := List.range 17

/-- Sixteen distinct rank-15 elements, one per bucket. -/
def zs : List ℕ := (List.range 16).map (fun e => e + 17)

/-- Stream A: promote, then the sixteen rank-15 elements, then the
rank-30 element. -/
def seqA : List ℕ := fillers ++ (zs ++ [33])

/-- Stream B: the same multiset as stream A with the rank-30 element
moved before the rank-15 elements. -/
def seqB : List ℕ := fillers ++ ([33] ++ zs)

/-- A dense receiver with bias base 1 and all registers 0. -/
def skBias1 : Sketch :=
  { regs := some (List.replicate 16 0), m := 16, p := 4, b := 1,
    sparse := false, sparseList := none, tmpSet := none }

/-- A dense sketch with bias base 0 whose bucket-0 register stores 3. -/
def skStored3 : Sketch :=
  { regs := some (3 :: List.replicate 15 0), m := 16, p := 4, b := 0,
    sparse := false, sparseList := none, tmpSet := none }

/-- A fresh dense receiver (all registers 0, bias base 0). -/
def skDense0 : Sketch :=
  { regs := some (List.replicate 16 0), m := 16, p := 4, b := 0,
    sparse := false, sparseList := none, tmpSet := none }

/-- A sparse sketch whose accumulator holds the single entry 32, which
decodes at `p = 4` to bucket 0 and rank 17. -/
def skRank17 : Sketch := { mkSketch 4 with tmpSet := some [32] }

/-- A dense sketch with bias base 3 and every register storing 2. -/
def skAll2b3 : Sketch :=
  { regs := some (List.replicate 16 2), m := 16, p := 4, b := 3,
    sparse := false, sparseList := none, tmpSet := none }

/-! ### Helper lemmas on sorted lists, the merge-join and the codecs -/

theorem ascFromB_mono : ∀ {L : List ℕ} {lo lol : ℕ}, lol ≤ lo →
    ascFromB lo L = true → ascFromB lol L = true
  | [], _, _, _, _ => rfl
  | a :: t, lo, lol, hle, h => by
    simp only [ascFromB, Bool.and_eq_true, decide_eq_true_eq] at h ⊢
    exact ⟨le_trans hle h.1, h.2⟩

theorem ascFromB_lb : ∀ {L : List ℕ} {lo : ℕ}, ascFromB lo L = true →
    ∀ x ∈ L, lo ≤ x
  | [], _, _, x, hx => by cases hx
  | a :: t, lo, h, x, hx => by
    simp only [ascFromB, Bool.and_eq_true, decide_eq_true_eq] at h
    rcases List.mem_cons.mp hx with rfl | hx
    · exact h.1
    · exact le_trans (Nat.le_succ_of_le h.1) (ascFromB_lb h.2 x hx)

theorem ascFromB_nodup : ∀ {L : List ℕ} {lo : ℕ}, ascFromB lo L = true → L.Nodup
  | [], _, _ => List.nodup_nil
  | a :: t, lo, h => by
    simp only [ascFromB, Bool.and_eq_true, decide_eq_true_eq] at h
    refine List.nodup_cons.mpr ⟨fun hmem => ?_, ascFromB_nodup h.2⟩
    have := ascFromB_lb h.2 a hmem
    omega

theorem insertSorted_toFinset (k : ℕ) : ∀ L : List ℕ,
    (insertSorted k L).toFinset = insert k L.toFinset
  | [] => rfl
  | a :: t => by
    by_cases h1 : k < a
    · simp [insertSorted, h1]
    · by_cases h2 : k = a
      · subst h2
        simp [insertSorted, h1]
      · simp only [insertSorted, if_neg h1, if_neg h2, List.toFinset_cons,
          insertSorted_toFinset k t]
        exact Finset.Insert.comm a k t.toFinset

theorem ascFromB_insertSorted : ∀ {L : List ℕ} {lo k : ℕ}, lo ≤ k →
    ascFromB lo L = true → ascFromB lo (insertSorted k L) = true
  | [], lo, k, hk, _ => by
    simp [insertSorted, ascFromB, hk]
  | a :: t, lo, k, hk, h => by
    simp only [ascFromB, Bool.and_eq_true, decide_eq_true_eq] at h
    by_cases h1 : k < a
    · simp only [insertSorted, if_pos h1, ascFromB, Bool.and_eq_true, decide_eq_true_eq]
      exact ⟨hk, by omega, ascFromB_mono (by omega) h.2⟩
    · by_cases h2 : k = a
      · subst h2
        simp only [insertSorted, if_neg h1, if_pos rfl, ascFromB, Bool.and_eq_true,
          decide_eq_true_eq]
        exact ⟨h.1, h.2⟩
      · simp only [insertSorted, if_neg h1, if_neg h2, ascFromB, Bool.and_eq_true,
          decide_eq_true_eq]
        exact ⟨h.1, ascFromB_insertSorted (by omega) h.2⟩

theorem insertSorted_append : ∀ {L : List ℕ} {k : ℕ}, (∀ a ∈ L, a < k) →
    insertSorted k L = L ++ [k]
  | [], k, _ => rfl
  | a :: t, k, h => by
    have ha : a < k := h a (List.mem_cons_self a t)
    simp only [insertSorted, if_neg (by omega : ¬k < a), if_neg (by omega : ¬k = a),
      List.cons_append, List.cons.injEq, true_and]
    exact insertSorted_append fun x hx => h x (List.mem_cons_of_mem a hx)

theorem foldl_insertSorted : ∀ {T : List ℕ} {P : List ℕ} {lo : ℕ},
    ascFromB lo T = true → (∀ a ∈ P, a < lo) →
    T.foldl (fun acc k => insertSorted k acc) P = P ++ T
  | [], P, lo, _, _ => by simp
  | x :: t, P, lo, h, hP => by
    simp only [ascFromB, Bool.and_eq_true, decide_eq_true_eq] at h
    have hstep : insertSorted x P = P ++ [x] :=
      insertSorted_append fun a ha => lt_of_lt_of_le (hP a ha) h.1
    have hrec := @foldl_insertSorted t (P ++ [x]) (x + 1) h.2
      (fun a ha => by
        rcases List.mem_append.mp ha with ha | ha
        · exact lt_of_lt_of_le (hP a ha) (by omega)
        · simp only [List.mem_singleton] at ha; omega)
    simp only [List.foldl_cons, hstep, hrec, List.append_assoc, List.singleton_append]

theorem mergeJoinF_spec : ∀ (f : ℕ) (ls ks : List ℕ) (lo : ℕ),
    ls.length + ks.length ≤ f →
    ascFromB lo ls = true → ascFromB lo ks = true →
    ascFromB lo (mergeJoinF f ls ks) = true ∧
      (mergeJoinF f ls ks).toFinset = ls.toFinset ∪ ks.toFinset
  | 0, ls, ks, lo, hf, hl, hk => by
    have h1 : ls = [] := List.eq_nil_of_length_eq_zero (by omega)
    have h2 : ks = [] := List.eq_nil_of_length_eq_zero (by omega)
    subst h1; subst h2
    exact ⟨rfl, by simp [mergeJoinF]⟩
  | f + 1, [], ks, lo, hf, hl, hk => by simp [mergeJoinF, hk]
  | f + 1, l :: ls, [], lo, hf, hl, hk => by simp [mergeJoinF, hl]
  | f + 1, l :: ls, k :: ks, lo, hf, hl, hk => by
    simp only [ascFromB, Bool.and_eq_true, decide_eq_true_eq] at hl hk
    simp only [List.length_cons] at hf
    by_cases h1 : l = k
    · subst h1
      have hrec := mergeJoinF_spec f ls ks (l + 1) (by omega) hl.2 hk.2
      simp only [mergeJoinF, eq_self_iff_true, if_true]
      constructor
      · simp only [ascFromB, Bool.and_eq_true, decide_eq_true_eq]
        exact ⟨hl.1, hrec.1⟩
      · simp only [List.toFinset_cons, hrec.2, Finset.insert_union, Finset.union_insert,
          Finset.insert_idem]
    · by_cases h2 : k < l
      · have hrec := mergeJoinF_spec f (l :: ls) ks (k + 1) (by simp; omega)
          (by simp only [ascFromB, Bool.and_eq_true, decide_eq_true_eq]
              exact ⟨by omega, hl.2⟩) hk.2
        simp only [mergeJoinF, if_neg h1, if_pos h2]
        constructor
        · simp only [ascFromB, Bool.and_eq_true, decide_eq_true_eq]
          exact ⟨hk.1, hrec.1⟩
        · simp only [List.toFinset_cons, hrec.2, Finset.union_insert]
      · have hlk : l < k := by omega
        have hrec := mergeJoinF_spec f ls (k :: ks) (l + 1) (by simp; omega) hl.2
          (by simp only [ascFromB, Bool.and_eq_true, decide_eq_true_eq]
              exact ⟨by omega, hk.2⟩)
        simp only [mergeJoinF, if_neg h1, if_neg (by omega : ¬k < l)]
        constructor
        · simp only [ascFromB, Bool.and_eq_true, decide_eq_true_eq]
          exact ⟨hl.1, hrec.1⟩
        · simp only [List.toFinset_cons, hrec.2, Finset.insert_union]

theorem mergeJoin_asc {ls ks : List ℕ} {lo : ℕ} (hl : ascFromB lo ls = true)
    (hk : ascFromB lo ks = true) : ascFromB lo (mergeJoin ls ks) = true :=
  (mergeJoinF_spec _ ls ks lo le_rfl hl hk).1

theorem mergeJoin_toFinset {ls ks : List ℕ} {lo : ℕ} (hl : ascFromB lo ls = true)
    (hk : ascFromB lo ks = true) :
    (mergeJoin ls ks).toFinset = ls.toFinset ∪ ks.toFinset :=
  (mergeJoinF_spec _ ls ks lo le_rfl hl hk).2

theorem mergeJoin_length {ls ks : List ℕ} {lo : ℕ} (hl : ascFromB lo ls = true)
    (hk : ascFromB lo ks = true) :
    (mergeJoin ls ks).length = (ls.toFinset ∪ ks.toFinset).card := by
  rw [← mergeJoin_toFinset hl hk,
    List.toFinset_card_of_nodup (ascFromB_nodup (mergeJoin_asc hl hk))]

theorem rd32_be32 {n : ℕ} (h : n < 2 ^ 32) (r : List ℕ) : rd32 (be32 n ++ r) = n := by
  have hr : rd32 (be32 n ++ r) =
      n / 2 ^ 24 % 256 * 2 ^ 24 + n / 2 ^ 16 % 256 * 2 ^ 16 + n / 2 ^ 8 % 256 * 2 ^ 8 +
        n % 256 := rfl
  rw [hr]
  omega

theorem be32_append_drop (n : ℕ) (r : List ℕ) : (be32 n ++ r).drop 4 = r := rfl

theorem flatMap_be32_length : ∀ T : List ℕ, (T.flatMap be32).length = 4 * T.length
  | [] => rfl
  | k :: t => by
    have h1 : (k :: t).flatMap be32 = be32 k ++ t.flatMap be32 := rfl
    rw [h1, List.length_append, flatMap_be32_length t]
    simp [be32]
    omega

theorem parseEntries_flatMap : ∀ {T : List ℕ}, (∀ k ∈ T, k < 2 ^ 32) →
    ∀ rest : List ℕ, parseEntries T.length (T.flatMap be32 ++ rest) = some T
  | [], _, rest => rfl
  | k :: t, h, rest => by
    have hk : k < 2 ^ 32 := h k (List.mem_cons_self k t)
    have hshape : (k :: t).flatMap be32 ++ rest = be32 k ++ (t.flatMap be32 ++ rest) := by
      simp [List.flatMap_cons, List.append_assoc]
    rw [List.length_cons, hshape]
    have hlen : ¬(be32 k ++ (t.flatMap be32 ++ rest)).length < 4 := by
      simp [be32]
    simp only [parseEntries, if_neg hlen, be32_append_drop,
      parseEntries_flatMap (fun x hx => h x (List.mem_cons_of_mem k hx)) rest,
      rd32_be32 hk]

theorem varDecOne_varEncF : ∀ (f n : ℕ), n < 128 ^ (f + 1) →
    ∀ rest : List ℕ, varDecOne (varEncF f n ++ rest) = some (n, rest)
  | 0, n, hn, rest => by
    have hsmall : n < 128 := by simpa using hn
    have hmod : n % 128 = n := Nat.mod_eq_of_lt hsmall
    simp [varEncF, varDecOne, hmod, hsmall]
  | f + 1, n, hn, rest => by
    by_cases hs : n < 128
    · simp [varEncF, varDecOne, hs]
    · have hdiv : n / 128 < 128 ^ (f + 1) := by
        have : n < 128 ^ (f + 1) * 128 := by
          calc n < 128 ^ (f + 1 + 1) := hn
          _ = 128 ^ (f + 1) * 128 := by ring
        omega
      have hrec := varDecOne_varEncF f (n / 128) hdiv rest
      simp only [varEncF, if_neg hs, List.cons_append, varDecOne,
        if_neg (by omega : ¬n % 128 + 128 < 128), hrec]
      congr 1
      ext
      · omega
      · rfl

theorem decEntries_deltas : ∀ {L : List ℕ} {last : ℕ}, ascFromB last L = true →
    (∀ x ∈ L, x < 2 ^ 32) →
    decEntries L.length last ((deltaList last L).flatMap varEnc) = some L
  | [], _, _, _ => rfl
  | x :: t, last, ha, hall => by
    simp only [ascFromB, Bool.and_eq_true, decide_eq_true_eq] at ha
    have hx : x < 2 ^ 32 := hall x (List.mem_cons_self x t)
    have hdelta : x - last < 128 ^ 41 := by
      have h1 : x - last < 2 ^ 32 := by omega
      have h2 : (2 : ℕ) ^ 32 ≤ 128 ^ 41 := by norm_num
      omega
    have hshape : (deltaList last (x :: t)).flatMap varEnc =
        varEnc (x - last) ++ (deltaList x t).flatMap varEnc := by
      simp [deltaList, List.flatMap_cons]
    have hsum : last + (x - last) = x := by omega
    have hrec := @decEntries_deltas t x (ascFromB_mono (by omega) ha.2)
      (fun y hy => hall y (List.mem_cons_of_mem x hy))
    rw [List.length_cons, hshape]
    simp only [decEntries, varEnc, varDecOne_varEncF 40 (x - last) hdelta, hsum, hrec]

theorem unpack_pack : ∀ {rs : List ℕ}, (∀ v ∈ rs, v < 16) → rs.length % 2 = 0 →
    unpack (pack rs) = rs
  | [], _, _ => rfl
  | [a], _, hl => by simp at hl
  | a :: b :: t, hv, hl => by
    have ha : a < 16 := hv a (by simp)
    have hb : b < 16 := hv b (by simp)
    have hrec := @unpack_pack t (fun v hvm => hv v (by simp [hvm]))
      (by simp only [List.length_cons] at hl; omega)
    simp only [pack, unpack, hrec]
    have h1 : (a % 16 * 16 + b % 16) / 16 % 16 = a := by omega
    have h2 : (a % 16 * 16 + b % 16) % 16 = b := by omega
    rw [h1, h2]

theorem listUnmarshal_listMarshal {L : List ℕ} (ha : ascFromB 0 L = true)
    (hall : ∀ k ∈ L, k < 2 ^ 32) (hlen : L.length < 2 ^ 32)
    (hbl : (varBytes L).length < 2 ^ 32) :
    listUnmarshal (listMarshal L) = some L := by
  have hshape : listMarshal L = be32 L.length ++ (be32 (varBytes L).length ++ varBytes L) := by
    simp [listMarshal, List.append_assoc]
  have hge : ¬(be32 L.length ++ (be32 (varBytes L).length ++ varBytes L)).length < 8 := by
    simp [be32]
  rw [hshape]
  simp only [listUnmarshal, if_neg hge, rd32_be32 hlen, be32_append_drop,
    rd32_be32 hbl]
  have hdd : (be32 L.length ++ (be32 (varBytes L).length ++ varBytes L)).drop 8 =
      varBytes L := rfl
  rw [hdd, if_neg (by omega : ¬(varBytes L).length < (varBytes L).length),
    List.take_length]
  exact decEntries_deltas ha hall

theorem insertSorted_ne_nil (k : ℕ) : ∀ T : List ℕ, insertSorted k T ≠ []
  | [] => by simp [insertSorted]
  | a :: t => by
    simp only [insertSorted]
    split_ifs <;> simp

theorem regMin_le_15 : ∀ rs : List ℕ, regMin rs ≤ 15
  | [] => le_refl 15
  | a :: t => le_trans (Nat.min_le_right a (regMin t)) (regMin_le_15 t)

theorem regGet_regSet_self {rs : List ℕ} {i v : ℕ} (hi : i < rs.length) :
    regGet (regSet rs i v) i = v % 16 := by
  simp [regGet, regSet, List.getD_eq_getElem?_getD, List.getElem?_set_eq_of_lt _ hi]

theorem regGet_regSet_ne {rs : List ℕ} {i j v : ℕ} (hne : i ≠ j) :
    regGet (regSet rs i v) j = regGet rs j := by
  simp [regGet, regSet, List.getD_eq_getElem?_getD, List.getElem?_set_ne hne]

theorem pack_length : ∀ rs : List ℕ, (pack rs).length = (rs.length + 1) / 2
  | [] => rfl
  | [_] => by simp [pack]
  | _ :: _ :: t => by
    simp only [pack, List.length_cons, pack_length t]
    omega

/-! ### Claim theorems -/

/-- C1 (code bug): merging a Dense `other` compares stored register
values directly, ignoring the two bias bases.  With the receiver at
`b = 1` (bucket-0 register 0, unrebased value 0 + 1 = 1) and the other
sketch at `b = 0` (bucket-0 register 3, unrebased value 3), the merged
receiver ends with stored 3 under `b = 1`, i.e. unrebased value 4,
whereas the element-wise maximum of the two unrebased values is 3: the
merge does not reconcile differing bias bases, so the claim's stated
per-bucket max-of-true-ranks property fails. -/
theorem c1_merge_dense_bias_bug :
    (skBias1.Merge (some skStored3)).1 = none ∧
    (skBias1.Merge (some skStored3)).2.b +
      regGet ((skBias1.Merge (some skStored3)).2.regs.getD []) 0 = 4 ∧
    max (skBias1.b + regGet (skBias1.regs.getD []) 0)
      (skStored3.b + regGet (skStored3.regs.getD []) 0) = 3 := by decide

/-- C2 (code bug): merging a Sparse `other` stores the decoded rank into
the receiver's register without clamping at 15.  The sparse entry 32
decodes at `p = 4` to bucket 0 with rank 17 > 15, and after the merge the
receiver's 4-bit bucket-0 register holds 17 mod 16 = 1 — neither the old
value 0 kept nor the clamped 15 the dense insert path would store — so a
decoded rank greater than 15 is stored into a receiver register,
violating the claimed invariant. -/
theorem c2_merge_sparse_overflow_bug :
    decodeHash 32 4 = (0, 17) ∧ 15 < 17 ∧
    regGet ((skDense0.Merge (some skRank17)).2.regs.getD []) 0 = 1 := by decide

/-- C3 (counterexample): the claim states that no rebase occurs when
`rank < b`.  On a dense state with `b = 3` and every register storing 2,
inserting rank 1 (so rank < b) fires the rebase: the `uint8` difference
`1 - 3` wraps to 254 ≥ 16, the register minimum 2 is positive, and the
bias base advances from 3 to 5 with every register lowered by 2. -/
theorem c3_counterexample :
    1 < skAll2b3.b ∧ (skAll2b3.insert 0 1).b = 5 ∧
    (skAll2b3.insert 0 1).regs = some (List.replicate 16 0) := by decide

/-- C4 (code bug): `UnmarshalBinary` of the empty byte string panics
indexing `data[0]` instead of returning a FormatError, and a wholly
unrecognized version marker (99) is accepted without any error: the
version byte is read and discarded. -/
theorem c4_unmarshal_no_format_error :
    (mkSketch 4).UnmarshalBinary [] = none ∧
    (mkSketch 4).UnmarshalBinary ([99, 4, 0, 1] ++ be32 0 ++ listMarshal []) =
      some (none, mkSketch 4) := by decide

/-- C7 (counterexample): two streams that are permutations of each other
yield different estimates.  Both streams promote after the seventeen
fillers (all registers 5, `b = 0`).  Stream A then raises every register
to 15 before the rank-30 element arrives, so the rebase advances `b` by
15 and the rank is stored without loss (`b = 15`, bucket 0 register 15,
true rank 30).  Stream B sees the rank-30 element first: the rebase can
only advance `b` by 5, the stored value clamps at 15 (true rank 20, five
levels lost), and the later rank-15 elements land at stored 10.  The two
final dense states differ, and the `b > 0` estimate branch — exact
integer arithmetic, no transcendental parameter involved — returns
376369 for A and 375587 for B. -/
theorem c7_counterexample :
    List.Perm seqA seqB ∧
    (run hC (mkSketch 4) seqA).Estimate (fun _ => 0) (fun _ _ _ => 0) ≠
      (run hC (mkSketch 4) seqB).Estimate (fun _ => 0) (fun _ _ _ => 0) :=
  ⟨List.Perm.append_left fillers (List.perm_append_comm), by decide⟩

/-- C9: construction fails exactly when the precision lies outside
[4, 18], and a successful construction yields a Sparse sketch with
`m = 2^p`. -/
theorem c9_new_precision_range (p : ℕ) :
    ((∃ e, New p = .error e) ↔ (p < 4 ∨ 18 < p)) ∧
    (∀ sk, New p = .ok sk → sk.sparse = true ∧ sk.m = 2 ^ p) := by
  constructor
  · unfold New
    by_cases h : p < 4 ∨ 18 < p
    · simp [h]
    · simp [h]
  · intro sk hsk
    unfold New at hsk
    by_cases h : p < 4 ∨ 18 < p
    · simp [h] at hsk
    · simp [h] at hsk
      subst hsk
      exact ⟨rfl, rfl⟩

/-- Witness for C9 at the boundary precisions: 3 and 19 fail, 4 and 18
succeed in Sparse state with the right bucket count. -/
theorem c9_new_precision_range_witness :
    (∃ e, New 3 = .error e) ∧ (∃ e, New 19 = .error e) ∧
    ((mkSketch 4).sparse = true ∧ (mkSketch 4).m = 2 ^ 4) ∧
    ((mkSketch 18).sparse = true ∧ (mkSketch 18).m = 2 ^ 18) :=
  ⟨(c9_new_precision_range 3).1.mpr (by decide),
   (c9_new_precision_range 19).1.mpr (by decide),
   (c9_new_precision_range 4).2 (mkSketch 4) rfl,
   (c9_new_precision_range 18).2 (mkSketch 18) rfl⟩

/-- C8: merging with a present sketch of different precision returns the
precision-mismatch error and leaves the receiver completely unchanged —
in particular a Sparse receiver is not promoted, since the precision
check precedes the promotion. -/
theorem c8_precision_mismatch (sk o : Sketch) (h : sk.p ≠ o.p) :
    sk.Merge (some o) = (some "precisions must be equal", sk) := by
  unfold Sketch.Merge
  simp [h]

/-- Witness for C8: a Sparse precision-4 receiver merged with a
precision-5 sketch errors out and is returned unchanged, still Sparse. -/
theorem c8_precision_mismatch_witness :
    (mkSketch 4).p ≠ (mkSketch 5).p ∧
    (mkSketch 4).Merge (some (mkSketch 5)) = (some "precisions must be equal", mkSketch 4) :=
  ⟨by decide, c8_precision_mismatch (mkSketch 4) (mkSketch 5) (by decide)⟩

/-- C10: `Merge` never modifies the other sketch: the translation of the
merge body threads `other` through unchanged, because every write in
src/hlltc.go lines 51-92 targets a receiver field (`sk.regs`, `sk.b`,
`sk.sparse`, ...) and `other` is only read.  (The embedding is
value-semantic; a call aliasing the receiver with `other` is a memory
concern outside it.) -/
theorem c10_merge_frame (sk o : Sketch) : (MergeWithOther sk o).2.2 = o := rfl

/-- C5: deserializing the serialization of any valid sketch (Sparse or
Dense, any precision in range, any bias base) succeeds without error and
yields a sketch with identical representation tag, precision `p`, bias
base `b`, and equal `Estimate()` — in fact the identical state — for any
receiver and any instantiation of the transcendental estimate
parameters. -/
theorem c5_round_trip (lc : ℕ → ℕ) (e0 : ℕ → ℕ → ℕ → ℕ) (sk sk0 : Sketch)
    (hv : validB sk = true) :
    ∃ r, sk0.UnmarshalBinary sk.MarshalBinary = some (none, r) ∧
      r.sparse = sk.sparse ∧ r.p = sk.p ∧ r.b = sk.b ∧
      r.Estimate lc e0 = sk.Estimate lc e0 := by
  suffices h : sk0.UnmarshalBinary sk.MarshalBinary = some (none, sk) from
    ⟨sk, h, rfl, rfl, rfl, rfl⟩
  obtain ⟨regs, m, p, b, sparse, sL, tS⟩ := sk
  simp only [validB, Bool.and_eq_true, decide_eq_true_eq] at hv
  obtain ⟨⟨⟨⟨hp4, hp18⟩, hm⟩, hb⟩, hrest⟩ := hv
  have hpn : ¬(p < 4 ∨ 18 < p) := by omega
  cases sparse with
  | true =>
    cases tS with
    | none => simp at hrest
    | some T =>
    cases sL with
    | none => simp at hrest
    | some L =>
    cases regs with
    | some rs => simp at hrest
    | none =>
    simp only [Bool.and_eq_true, List.all_eq_true, decide_eq_true_eq] at hrest
    obtain ⟨⟨⟨⟨⟨⟨hT, hL⟩, hTall⟩, hLall⟩, hTlen⟩, hLlen⟩, hBlen⟩ := hrest
    subst hm
    have hflat : Sketch.MarshalBinary ⟨none, 2 ^ p, p, b, true, some L, some T⟩ =
        1 :: p :: b :: 1 :: (be32 T.length ++ (T.flatMap be32 ++ listMarshal L)) := by
      simp [Sketch.MarshalBinary, setMarshal, version, List.append_assoc]
    rw [hflat]
    simp only [Sketch.UnmarshalBinary]
    rw [if_neg (by simp only [List.length_cons]; omega :
      ¬(1 :: p :: b :: 1 :: (be32 T.length ++ (T.flatMap be32 ++ listMarshal L))).length < 2)]
    rw [show (1 :: p :: b :: 1 :: (be32 T.length ++ (T.flatMap be32 ++ listMarshal L))).getD 1 0
        = p from rfl]
    simp only [New, if_neg hpn]
    rw [if_neg (by simp only [List.length_cons]; omega :
      ¬(1 :: p :: b :: 1 :: (be32 T.length ++ (T.flatMap be32 ++ listMarshal L))).length < 4)]
    rw [show (1 :: p :: b :: 1 :: (be32 T.length ++ (T.flatMap be32 ++ listMarshal L))).getD 3 0
        = 1 from rfl]
    rw [if_pos rfl]
    rw [if_neg (by simp only [List.length_cons, List.length_append, be32]; omega :
      ¬(1 :: p :: b :: 1 :: (be32 T.length ++ (T.flatMap be32 ++ listMarshal L))).length < 8)]
    rw [show (1 :: p :: b :: 1 :: (be32 T.length ++ (T.flatMap be32 ++ listMarshal L))).drop 4
        = be32 T.length ++ (T.flatMap be32 ++ listMarshal L) from rfl]
    rw [rd32_be32 hTlen]
    rw [show (1 :: p :: b :: 1 :: (be32 T.length ++ (T.flatMap be32 ++ listMarshal L))).drop 8
        = T.flatMap be32 ++ listMarshal L from rfl]
    rw [parseEntries_flatMap hTall (listMarshal L)]
    have hdropTo : (1 :: p :: b :: 1 ::
        (be32 T.length ++ (T.flatMap be32 ++ listMarshal L))).drop (8 + 4 * T.length)
        = listMarshal L := by
      have h1 : (1 :: p :: b :: 1 ::
          (be32 T.length ++ (T.flatMap be32 ++ listMarshal L))).drop (8 + 4 * T.length)
          = ((T.flatMap be32 ++ listMarshal L).drop (4 * T.length)) := by
        rw [← List.drop_drop]
        rfl
      rw [h1, ← flatMap_be32_length T, List.drop_left]
    rw [hdropTo, listUnmarshal_listMarshal hL hLall hLlen hBlen]
    rw [show (2 : ℕ) ^ p = 2 ^ p from rfl]
    have hfold : T.foldl (fun t k => insertSorted k t) [] = T := by
      have := @foldl_insertSorted T [] 0 hT (by simp)
      simpa using this
    rw [show (1 :: p :: b :: 1 :: (be32 T.length ++ (T.flatMap be32 ++ listMarshal L))).getD 2 0
        = b from rfl]
    simp only [hfold, mkSketch]
  | false =>
    cases tS with
    | some T => simp at hrest
    | none =>
    cases sL with
    | some L => simp at hrest
    | none =>
    cases regs with
    | none => simp at hrest
    | some rs =>
    simp only [Bool.and_eq_true, List.all_eq_true, decide_eq_true_eq] at hrest
    obtain ⟨⟨heven, hval⟩, hsz⟩ := hrest
    subst hm
    have hpl : (pack rs).length = rs.length / 2 := by
      rw [pack_length]
      omega
    have hplb : (pack rs).length < 2 ^ 32 := by omega
    have hflat : Sketch.MarshalBinary ⟨some rs, 2 ^ p, p, b, false, none, none⟩ =
        1 :: p :: b :: 0 :: (be32 (pack rs).length ++ pack rs) := by
      simp [Sketch.MarshalBinary, version, List.append_assoc]
    rw [hflat]
    simp only [Sketch.UnmarshalBinary]
    rw [if_neg (by simp only [List.length_cons]; omega :
      ¬(1 :: p :: b :: 0 :: (be32 (pack rs).length ++ pack rs)).length < 2)]
    rw [show (1 :: p :: b :: 0 :: (be32 (pack rs).length ++ pack rs)).getD 1 0 = p from rfl]
    simp only [New, if_neg hpn]
    rw [if_neg (by simp only [List.length_cons]; omega :
      ¬(1 :: p :: b :: 0 :: (be32 (pack rs).length ++ pack rs)).length < 4)]
    rw [show (1 :: p :: b :: 0 :: (be32 (pack rs).length ++ pack rs)).getD 3 0 = 0 from rfl]
    rw [if_neg (by omega : ¬(0 : ℕ) = 1)]
    rw [if_neg (by simp only [List.length_cons, List.length_append, be32]; omega :
      ¬(1 :: p :: b :: 0 :: (be32 (pack rs).length ++ pack rs)).length < 8)]
    rw [show (1 :: p :: b :: 0 :: (be32 (pack rs).length ++ pack rs)).drop 4
        = be32 (pack rs).length ++ pack rs from rfl]
    rw [rd32_be32 hplb]
    rw [show (1 :: p :: b :: 0 :: (be32 (pack rs).length ++ pack rs)).drop 8
        = pack rs from rfl]
    rw [if_neg (lt_irrefl (pack rs).length)]
    rw [show (1 :: p :: b :: 0 :: (be32 (pack rs).length ++ pack rs)).getD 2 0 = b from rfl]
    rw [Nat.sub_self, Nat.zero_mul, List.replicate_zero, List.append_nil,
      unpack_pack hval heven]
    simp only [mkSketch]

/-- Witness for C5: a concrete Sparse sketch with one accumulator entry
and a two-entry compressed list, and a concrete Dense sketch with bias
base 7, both round-trip through serialization into an arbitrary
receiver. -/
theorem c5_round_trip_witness :
    validB { mkSketch 4 with tmpSet := some [5], sparseList := some [3, 9] } = true ∧
    ∃ r, (mkSketch 6).UnmarshalBinary
        (Sketch.MarshalBinary { mkSketch 4 with tmpSet := some [5], sparseList := some [3, 9] })
        = some (none, r) ∧
      r.sparse = ({ mkSketch 4 with tmpSet := some [5], sparseList := some [3, 9] } : Sketch).sparse ∧
      r.p = ({ mkSketch 4 with tmpSet := some [5], sparseList := some [3, 9] } : Sketch).p ∧
      r.b = ({ mkSketch 4 with tmpSet := some [5], sparseList := some [3, 9] } : Sketch).b ∧
      r.Estimate (fun c => c) (fun _ _ _ => 0)
        = Sketch.Estimate (fun c => c) (fun _ _ _ => 0)
            { mkSketch 4 with tmpSet := some [5], sparseList := some [3, 9] } :=
  ⟨by decide,
   c5_round_trip (fun c => c) (fun _ _ _ => 0)
     { mkSketch 4 with tmpSet := some [5], sparseList := some [3, 9] } (mkSketch 6)
     (by decide)⟩

/-- C3 (amended): on a well-formed dense state, a rebase is attempted
exactly when the unsigned 8-bit difference `(rank - b) mod 256` meets or
exceeds the width limit 16 — which also happens whenever `rank < b`,
since the subtraction wraps — and takes effect (advancing `b` by the
register minimum and lowering every register by it) precisely when that
minimum is positive; afterwards, if and only if `rank > b` (the
post-rebase `b`), the clamped value `min(rank - b, 15)` is stored at
`index`, and only when it strictly exceeds the currently stored value;
when no rebase takes effect no register ever decreases. -/
theorem c3_insert_amended (sk : Sketch) (rs : List ℕ) (i r : ℕ)
    (hrs : sk.regs = some rs) (hb : sk.b < 256) (hi : i < rs.length) :
    let rmin := regMin rs
    let reb := 16 ≤ u8sub r sk.b ∧ 0 < rmin
    let b1 := if reb then (sk.b + rmin) % 256 else sk.b
    let rs1 := if reb then regRebase rs rmin else rs
    let val := min (r - b1) 15
    let rs2 := if b1 < r ∧ regGet rs1 i < val then regSet rs1 i val else rs1
    sk.insert i r = { sk with b := b1, regs := some rs2 } ∧
    ((sk.insert i r).b ≠ sk.b ↔ reb) ∧
    (¬reb → ∀ j, regGet rs j ≤ regGet rs2 j) := by
  intro rmin reb b1 rs1 val rs2
  have hmin15 : rmin ≤ 15 := regMin_le_15 rs
  have hmain : sk.insert i r = { sk with b := b1, regs := some rs2 } := by
    obtain ⟨regs0, m0, p0, b0, sp0, sL0, tS0⟩ := sk
    simp only at hrs hb
    subst hrs
    simp only [rs2, rs1, val, b1, reb, rmin]
    simp only [Sketch.insert, Option.getD_some]
    split_ifs <;> simp_all
  refine ⟨hmain, ?_, ?_⟩
  · rw [hmain]
    by_cases hreb : reb
    · have hb1 : b1 = (sk.b + rmin) % 256 := if_pos hreb
      simp only [hb1]
      constructor
      · intro _; exact hreb
      · intro _
        have hpos : 0 < rmin := hreb.2
        show (sk.b + rmin) % 256 ≠ sk.b
        omega
    · have hb1 : b1 = sk.b := if_neg hreb
      simp only [hb1]
      constructor
      · intro hcon; exact absurd rfl hcon
      · intro hcon; exact absurd hcon hreb
  · intro hnreb j
    have hrs1 : rs1 = rs := if_neg hnreb
    have hb1 : b1 = sk.b := if_neg hnreb
    by_cases hstore : b1 < r ∧ regGet rs1 i < val
    · have h2 : rs2 = regSet rs i val := by
        simp only [rs2, if_pos hstore, hrs1]
      rw [h2]
      by_cases hij : i = j
      · subst hij
        rw [regGet_regSet_self hi]
        have hval15 : val ≤ 15 := min_le_right _ _
        have := hstore.2
        rw [hrs1] at this
        omega
      · rw [regGet_regSet_ne hij]
    · have h2 : rs2 = rs := by
        simp only [rs2, if_neg hstore, hrs1]
      rw [h2]

/-- Witness for C3 (amended): on the concrete dense state with `b = 3`
and all registers 2, inserting rank 20 at bucket 0 satisfies the
rebase-exactly-on-wrapped-overflow characterization. -/
theorem c3_insert_amended_witness :
    (skAll2b3.insert 0 20).b ≠ skAll2b3.b ↔
      (16 ≤ u8sub 20 skAll2b3.b ∧ 0 < regMin (List.replicate 16 2)) :=
  (c3_insert_amended skAll2b3 (List.replicate 16 2) 0 20 rfl (by decide) (by decide)).2.1

/-- C6: while Sparse, `Insert` folds exactly when the accumulator's size
times 100 exceeds `m` after the new entry is added; the fold merge-joins
the sorted accumulator into the compressed list in ascending order
keeping one copy of equal entries (the result is the sorted
duplicate-free union), replaces the compressed list and empties the
accumulator; and immediately after a fold the sketch promotes to Dense
if and only if the new compressed list's element count exceeds `m`. -/
theorem c6_fold_and_promotion (h : ℕ → ℕ) (sk : Sketch) (e : ℕ) (T L T1 L1 : List ℕ)
    (hsp : sk.sparse = true) (hT : sk.tmpSet = some T) (hL : sk.sparseList = some L)
    (haT : ascFromB 0 T = true) (haL : ascFromB 0 L = true)
    (hT1 : T1 = insertSorted (encodeHash (h e) sk.p) T)
    (hL1 : L1 = mergeJoin L T1) :
    (¬sk.m < T1.length * 100 → sk.Insert h e = { sk with tmpSet := some T1 }) ∧
    (sk.m < T1.length * 100 →
      ascFromB 0 L1 = true ∧ L1.Nodup ∧ L1.toFinset = T1.toFinset ∪ L.toFinset ∧
      (¬sk.m < L1.length →
        sk.Insert h e = { sk with tmpSet := some [], sparseList := some L1 }) ∧
      (sk.m < L1.length →
        sk.Insert h e = Sketch.toNormal { sk with tmpSet := some [], sparseList := some L1 } ∧
        (sk.Insert h e).sparse = false)) := by
  have haT1 : ascFromB 0 T1 = true := by
    rw [hT1]; exact ascFromB_insertSorted (Nat.zero_le _) haT
  have hL1asc : ascFromB 0 L1 = true := by
    rw [hL1]; exact mergeJoin_asc haL haT1
  have hL1fin : L1.toFinset = T1.toFinset ∪ L.toFinset := by
    rw [hL1, mergeJoin_toFinset haL haT1, Finset.union_comm]
  obtain ⟨regs0, m0, p0, b0, sp0, sL0, tS0⟩ := sk
  simp only at hsp hT hL hT1
  subst hsp; subst hT; subst hL; subst hT1; subst hL1
  have hne : (insertSorted (encodeHash (h e) p0) T).isEmpty = false := by
    cases hc : insertSorted (encodeHash (h e) p0) T with
    | nil => exact absurd hc (insertSorted_ne_nil _ T)
    | cons a t => rfl
  refine ⟨?_, fun hyes => ⟨hL1asc, ascFromB_nodup hL1asc, hL1fin, ?_, ?_⟩⟩
  · intro hno
    simp only [Sketch.Insert, Sketch.mergeSparse, Option.getD_some]
    split_ifs <;> simp_all
  · intro hnp
    simp only [Sketch.Insert, Sketch.mergeSparse, Option.getD_some]
    split_ifs <;> simp_all
    omega
  · intro hp
    have hins : Sketch.Insert h ⟨regs0, m0, p0, b0, true, some L, some T⟩ e =
        Sketch.toNormal ⟨regs0, m0, p0, b0, true,
          some (mergeJoin L (insertSorted (encodeHash (h e) p0) T)), some []⟩ := by
      simp only [Sketch.Insert, Sketch.mergeSparse, Option.getD_some]
      split_ifs <;> simp_all
    exact ⟨hins, by rw [hins]; rfl⟩

/-- Witness for C6: on a fresh precision-4 sketch every insertion folds
(1 * 100 > 16), the folded single-entry list does not exceed `m = 16`,
and no promotion happens. -/
theorem c6_fold_and_promotion_witness :
    (mkSketch 4).sparse = true ∧ ((16 : ℕ) < 1 * 100) ∧
    Sketch.Insert hC (mkSketch 4) 0 =
      { mkSketch 4 with tmpSet := some [], sparseList := some [131072] } := by
  refine ⟨rfl, by decide, ?_⟩
  have hmain := c6_fold_and_promotion hC (mkSketch 4) 0 [] [] [131072] [131072]
    rfl rfl rfl rfl rfl (by decide) (by decide)
  have h2 := hmain.2 (by decide)
  exact h2.2.2.2.1 (by decide)

theorem Insert_sparse_step (h : ℕ → ℕ) (e : ℕ) (rg : Option (List ℕ)) (m0 p0 b0 : ℕ)
    (T L : List ℕ) :
    Sketch.Insert h ⟨rg, m0, p0, b0, true, some L, some T⟩ e =
      if m0 < (insertSorted (encodeHash (h e) p0) T).length * 100 then
        (if m0 < (mergeJoin L (insertSorted (encodeHash (h e) p0) T)).length then
          Sketch.toNormal ⟨rg, m0, p0, b0, true,
            some (mergeJoin L (insertSorted (encodeHash (h e) p0) T)), some []⟩
        else ⟨rg, m0, p0, b0, true,
          some (mergeJoin L (insertSorted (encodeHash (h e) p0) T)), some []⟩)
      else ⟨rg, m0, p0, b0, true, some L, some (insertSorted (encodeHash (h e) p0) T)⟩ := by
  have hne : (insertSorted (encodeHash (h e) p0) T).isEmpty = false := by
    cases hc : insertSorted (encodeHash (h e) p0) T with
    | nil => exact absurd hc (insertSorted_ne_nil _ T)
    | cons a t => rfl
  simp only [Sketch.Insert, Sketch.mergeSparse, Option.getD_some]
  split_ifs <;> simp_all

theorem canon_aux : ∀ (xs acc : List ℕ), ascFromB 0 acc = true →
    ascFromB 0 (xs.foldl (fun a k => insertSorted k a) acc) = true ∧
    (xs.foldl (fun a k => insertSorted k a) acc).toFinset = acc.toFinset ∪ xs.toFinset
  | [], _, ha => ⟨ha, by simp⟩
  | x :: xs, acc, ha => by
    have ha1 : ascFromB 0 (insertSorted x acc) = true :=
      ascFromB_insertSorted (Nat.zero_le x) ha
    have hrec := canon_aux xs (insertSorted x acc) ha1
    refine ⟨hrec.1, ?_⟩
    simp only [List.foldl_cons] at hrec ⊢
    rw [hrec.2, insertSorted_toFinset]
    ext y; simp

theorem canon_asc (xs : List ℕ) : ascFromB 0 (canon xs) = true := (canon_aux xs [] rfl).1

theorem canon_toFinset (xs : List ℕ) : (canon xs).toFinset = xs.toFinset := by
  have := (canon_aux xs [] rfl).2
  simpa [canon] using this

theorem canon_length (xs : List ℕ) : (canon xs).length = xs.toFinset.card := by
  rw [← canon_toFinset, List.toFinset_card_of_nodup (ascFromB_nodup (canon_asc xs))]

theorem run_sparse_inv (h : ℕ → ℕ) (p : ℕ) :
    ∀ (es : List ℕ) (rg : Option (List ℕ)) (b0 : ℕ) (T L : List ℕ) (S : Finset ℕ),
      ascFromB 0 T = true → ascFromB 0 L = true →
      T.toFinset ∪ L.toFinset = S →
      (S ∪ (es.map fun e => encodeHash (h e) p).toFinset).card ≤ 2 ^ p →
      ∃ T2 L2,
        run h ⟨rg, 2 ^ p, p, b0, true, some L, some T⟩ es
          = ⟨rg, 2 ^ p, p, b0, true, some L2, some T2⟩ ∧
        ascFromB 0 T2 = true ∧ ascFromB 0 L2 = true ∧
        T2.toFinset ∪ L2.toFinset = S ∪ (es.map fun e => encodeHash (h e) p).toFinset
  | [], rg, b0, T, L, S, haT, haL, hU, _ => ⟨T, L, rfl, haT, haL, by simpa using hU⟩
  | e :: rest, rg, b0, T, L, S, haT, haL, hU, hcard => by
    have hstep := Insert_sparse_step h e rg (2 ^ p) p b0 T L
    have haT1 : ascFromB 0 (insertSorted (encodeHash (h e) p) T) = true :=
      ascFromB_insertSorted (Nat.zero_le _) haT
    have hT1fin : (insertSorted (encodeHash (h e) p) T).toFinset =
        insert (encodeHash (h e) p) T.toFinset := insertSorted_toFinset _ T
    have hSins : insert (encodeHash (h e) p) S ∪ (rest.map fun x => encodeHash (h x) p).toFinset
        = S ∪ ((e :: rest).map fun x => encodeHash (h x) p).toFinset := by
      simp only [List.map_cons, List.toFinset_cons]
      ext y; simp
    have hcard1 : (insert (encodeHash (h e) p) S ∪
        (rest.map fun x => encodeHash (h x) p).toFinset).card ≤ 2 ^ p := by
      rw [hSins]; exact hcard
    have hrun : run h ⟨rg, 2 ^ p, p, b0, true, some L, some T⟩ (e :: rest)
        = run h (Sketch.Insert h ⟨rg, 2 ^ p, p, b0, true, some L, some T⟩ e) rest := rfl
    by_cases hf : 2 ^ p < (insertSorted (encodeHash (h e) p) T).length * 100
    · have haL1 : ascFromB 0 (mergeJoin L (insertSorted (encodeHash (h e) p) T)) = true :=
        mergeJoin_asc haL haT1
      have hL1fin : (mergeJoin L (insertSorted (encodeHash (h e) p) T)).toFinset =
          insert (encodeHash (h e) p) S := by
        rw [mergeJoin_toFinset haL haT1, hT1fin, ← hU]
        ext y; simp; tauto
      have hnp : ¬2 ^ p < (mergeJoin L (insertSorted (encodeHash (h e) p) T)).length := by
        have hlen : (mergeJoin L (insertSorted (encodeHash (h e) p) T)).length =
            (insert (encodeHash (h e) p) S).card := by
          rw [← hL1fin,
            List.toFinset_card_of_nodup (ascFromB_nodup haL1)]
        have hsub : insert (encodeHash (h e) p) S ⊆
            insert (encodeHash (h e) p) S ∪ (rest.map fun x => encodeHash (h x) p).toFinset :=
          Finset.subset_union_left
        have := le_trans (Finset.card_le_card hsub) hcard1
        omega
      have hrec := run_sparse_inv h p rest rg b0 []
        (mergeJoin L (insertSorted (encodeHash (h e) p) T))
        (insert (encodeHash (h e) p) S) rfl haL1 (by simpa using hL1fin) hcard1
      obtain ⟨T2, L2, heq, haT2, haL2, hU2⟩ := hrec
      refine ⟨T2, L2, ?_, haT2, haL2, ?_⟩
      · rw [hrun, hstep, if_pos hf, if_neg hnp, heq]
      · rw [hU2, hSins]
    · have hrec := run_sparse_inv h p rest rg b0 (insertSorted (encodeHash (h e) p) T) L
        (insert (encodeHash (h e) p) S) haT1 haL
        (by rw [hT1fin, ← hU]; ext y; simp) hcard1
      obtain ⟨T2, L2, heq, haT2, haL2, hU2⟩ := hrec
      refine ⟨T2, L2, ?_, haT2, haL2, ?_⟩
      · rw [hrun, hstep, if_neg hf, heq]
      · rw [hU2, hSins]

theorem Estimate_sparse (lc : ℕ → ℕ) (e0 : ℕ → ℕ → ℕ → ℕ) (rg : Option (List ℕ))
    (m0 p0 b0 : ℕ) (T L : List ℕ) (haT : ascFromB 0 T = true)
    (haL : ascFromB 0 L = true) :
    Sketch.Estimate lc e0 ⟨rg, m0, p0, b0, true, some L, some T⟩ =
      lc ((T.toFinset ∪ L.toFinset).card) := by
  cases T with
  | nil =>
    have hmain : Sketch.Estimate lc e0 ⟨rg, m0, p0, b0, true, some L, some []⟩
        = lc L.length := rfl
    rw [hmain]
    simp only [List.toFinset_nil, Finset.empty_union]
    rw [List.toFinset_card_of_nodup (ascFromB_nodup haL)]
  | cons a t =>
    have hmain : Sketch.Estimate lc e0 ⟨rg, m0, p0, b0, true, some L, some (a :: t)⟩
        = lc (mergeJoin L (a :: t)).length := rfl
    rw [hmain, mergeJoin_length haL haT, Finset.union_comm]

/-- C7 (amended): as long as the sketch stays in the Sparse
representation — which is guaranteed whenever the number of distinct
encoded entries of the stream does not exceed `m = 2^p` — the estimate
after inserting a stream depends only on the set of distinct encodings:
two streams with the same encoding set (in particular a permutation of a
stream, or the stream of its distinct elements inserted once) yield
exactly equal estimates, for every instantiation of the transcendental
estimate parameters.  (The unrestricted claim fails: once the Dense
rebase/clamp path is reached, insertion order matters.) -/
theorem c7_sparse_estimate_invariance (lc : ℕ → ℕ) (e0 : ℕ → ℕ → ℕ → ℕ)
    (h : ℕ → ℕ) (p : ℕ) (s t : List ℕ)
    (hset : canon (s.map fun e => encodeHash (h e) p)
      = canon (t.map fun e => encodeHash (h e) p))
    (hcard : (canon (s.map fun e => encodeHash (h e) p)).length ≤ 2 ^ p) :
    Sketch.Estimate lc e0 (run h (mkSketch p) s)
      = Sketch.Estimate lc e0 (run h (mkSketch p) t) := by
  have hsetS : (s.map fun e => encodeHash (h e) p).toFinset
      = (t.map fun e => encodeHash (h e) p).toFinset := by
    rw [← canon_toFinset, ← canon_toFinset (t.map fun e => encodeHash (h e) p), hset]
  have hcardS : (s.map fun e => encodeHash (h e) p).toFinset.card ≤ 2 ^ p := by
    rw [← canon_length]; exact hcard
  have hmk : mkSketch p = ⟨none, 2 ^ p, p, 0, true, some [], some []⟩ := rfl
  obtain ⟨T2, L2, heq, haT2, haL2, hU⟩ := run_sparse_inv h p s none 0 [] [] ∅
    rfl rfl (by simp) (by simpa using hcardS)
  obtain ⟨T3, L3, heq3, haT3, haL3, hU3⟩ := run_sparse_inv h p t none 0 [] [] ∅
    rfl rfl (by simp) (by rw [Finset.empty_union, ← hsetS]; exact hcardS)
  rw [hmk, heq, heq3, Estimate_sparse lc e0 none (2 ^ p) p 0 T2 L2 haT2 haL2,
    Estimate_sparse lc e0 none (2 ^ p) p 0 T3 L3 haT3 haL3]
  congr 1
  rw [hU, hU3, hsetS]

/-- Witness for C7 (amended): the streams `[0, 1, 0]` and `[1, 0]` have
the same two-element encoding set at precision 4 (2 ≤ 16), and their
estimates agree. -/
theorem c7_sparse_estimate_invariance_witness :
    canon (([0, 1, 0].map fun e => encodeHash (hC e) 4))
        = canon (([1, 0].map fun e => encodeHash (hC e) 4)) ∧
    (canon (([0, 1, 0].map fun e => encodeHash (hC e) 4))).length ≤ 2 ^ 4 ∧
    Sketch.Estimate (fun c => c) (fun _ _ _ => 0) (run hC (mkSketch 4) [0, 1, 0])
      = Sketch.Estimate (fun c => c) (fun _ _ _ => 0) (run hC (mkSketch 4) [1, 0]) :=
  ⟨by decide, by decide,
   c7_sparse_estimate_invariance (fun c => c) (fun _ _ _ => 0) hC 4 [0, 1, 0] [1, 0]
     (by decide) (by decide)⟩

end HLLTC
